import Mathlib

/-!
Verification of the chunk-planning and invocation-sequencing core of the
IELTS2GO video chunker (src/chunker.js), shallowly embedded in Lean.

Numbers that flow through JavaScript arithmetic are modelled by `JSNum`
(a rational or NaN); durations are rationals; the external transcoding
engine is modelled by an outcome oracle per invocation, and the HLS and
standard-mode control flows as event traces.
-/

namespace Chunkify

/-- JavaScript number, restricted to the values arising in this program:
a rational, or NaN (what `parseInt` yields on unparsable input).
Comparisons against NaN are false; arithmetic propagates NaN. -/
inductive JSNum where
  | nan : JSNum
  | num : ℚ → JSNum
  deriving DecidableEq

/-- The test `chunkLength <= 0` of `validateInput` (src/chunker.js:118):
false when `chunkLength` is NaN, since every comparison with NaN is false. -/
def jsLeZero : JSNum → Bool
  | .nan => false
  | .num q => decide (q ≤ 0)

/-- JavaScript division as used in `totalDuration / chunkLength`
(src/chunker.js:297). NaN propagates.  Division by zero yields an infinity
in JavaScript; that branch is unreachable here because `validateInput`
exits when `chunkLength <= 0`, so we collapse it to NaN. -/
def jsDiv : JSNum → JSNum → JSNum
  | .nan, _ => .nan
  | .num _, .nan => .nan
  | .num a, .num b => if b = 0 then .nan else .num (a / b)

/-- `Math.ceil`: NaN propagates, otherwise the integer ceiling. -/
def jsCeil : JSNum → JSNum
  | .nan => .nan
  | .num q => .num ((⌈q⌉ : ℤ) : ℚ)

/-- Number of iterations of `for (let i = 0; i < n; i++)` over natural `i`:
zero when `n` is NaN (the comparison is always false), and otherwise the
number of naturals strictly below `n`. -/
def loopCount : JSNum → ℕ
  | .nan => 0
  | .num q => (⌈q⌉ : ℤ).toNat

/-- The loop condition `i < n` of that `for` loop, with `i : ℕ`. -/
def jsLtNat (i : ℕ) : JSNum → Bool
  | .nan => false
  | .num q => decide ((i : ℚ) < q)

/-- Digit prefix of a character list, as `parseInt` consumes it. -/
def takeDigits : List Char → List Char
  | [] => []
  | c :: cs => if c.isDigit then c :: takeDigits cs else []

/-- Value of a decimal digit string. -/
def digitsToNat (l : List Char) : ℕ :=
  l.foldl (fun acc c => acc * 10 + (c.toNat - 48)) 0

/-- `parseInt(s, 10)` (src/chunker.js:98): skip leading whitespace, read an
optional sign and the longest decimal-digit prefix; NaN when no digit. -/
def parseIntJS (s : String) : JSNum :=
  let cs := s.data.dropWhile Char.isWhitespace
  match cs with
  | '-' :: rest =>
    let ds := takeDigits rest
    if ds = [] then .nan else .num (-(digitsToNat ds : ℚ))
  | '+' :: rest =>
    let ds := takeDigits rest
    if ds = [] then .nan else .num ((digitsToNat ds : ℚ))
  | _ =>
    let ds := takeDigits cs
    if ds = [] then .nan else .num ((digitsToNat ds : ℚ))

/-- `String(n).padStart(len, c)`: left-pad to a minimum length; a longer
string is kept unchanged (padStart never truncates). -/
def padStart (s : String) (len : ℕ) (c : Char) : String :=
  String.mk (List.replicate (len - s.length) c) ++ s

/-- The output filename of the 0-based chunk `i`
(src/chunker.js:313): `pfx + "_" + String(i + 1).padStart(3, '0') + "." + ext`.
`pfx` models the `filePrefix` CLI option. -/
def chunkFilename (pfx ext : String) (i : ℕ) : String :=
  pfx ++ "_" ++ padStart (Nat.repr (i + 1)) 3 '0' ++ "." ++ ext

/-- One planned chunk: the loop state of the standard chunking loop
(src/chunker.js:311-314). -/
structure ChunkJob where
  index : ℕ
  startOffset : ℚ
  plannedDuration : ℚ
  outputFilename : String
  deriving DecidableEq

/-- The rational carried by a `JSNum`; only consulted on non-NaN values
(the chunk loop body is unreachable when `chunkLength` is NaN). -/
def ratOf : JSNum → ℚ
  | .nan => 0
  | .num q => q

/-- `Math.ceil(totalDuration / chunkLength)` (src/chunker.js:297). -/
def numChunksJS (duration chunkLength : JSNum) : JSNum :=
  jsCeil (jsDiv duration chunkLength)

/-- The ordered chunk plan of the standard chunking path
(src/chunker.js:296-314): for each loop index `i`, seek to
`i * chunkLength`, request `chunkLength` seconds, and name the output
file with the zero-padded 1-based index. -/
def planChunks (duration : ℚ) (chunkLength : JSNum) (pfx ext : String) : List ChunkJob :=
  (List.range (loopCount (numChunksJS (.num duration) chunkLength))).map fun i =>
    { index := i
      startOffset := (i : ℚ) * ratOf chunkLength
      plannedDuration := ratOf chunkLength
      outputFilename := chunkFilename pfx ext i }

/-- Modelled from the spec: the external transcoding engine's end-of-stream
clipping (spec sections 4.2 and 8) — the engine is instructed to extract
`requested` seconds starting at `start`, but emits only up to the end of
the `duration`-second source. The engine itself is not part of this
repository. -/
def effectiveDuration (duration requested start : ℚ) : ℚ :=
  min requested (duration - start)

/-- What `validateInput` (src/chunker.js:106-127) does: exit the process
with code 1, or proceed, having possibly warned about the quality preset. -/
inductive ValidationOutcome where
  | exit : ℕ → ValidationOutcome
  | proceed : Bool → ValidationOutcome
  deriving DecidableEq

/-- The nine named quality presets (src/chunker.js:123). -/
def validPresets : List String :=
  ["ultrafast", "superfast", "veryfast", "faster", "fast", "medium", "slow", "slower", "veryslow"]

/-- `validateInput` (src/chunker.js:106-127): exit 1 on a missing input
argument, a nonexistent file, or `chunkLength <= 0`; otherwise proceed,
warning (and only warning) when the preset is not one of the nine. -/
def validateInput (inputFileGiven fileExists : Bool) (chunkLength : JSNum)
    (qualityPreset : String) : ValidationOutcome :=
  if !inputFileGiven then .exit 1
  else if !fileExists then .exit 1
  else if jsLeZero chunkLength then .exit 1
  else .proceed (!(validPresets.contains qualityPreset))

/-- The output options of re-encode mode (src/chunker.js:333-339), verbatim:
note the preset used is `qualityPreset` itself, whatever `validateInput`
warned. -/
def encodeOutputOptions (qualityPreset : String) : List String :=
  ["-c:v libx264", "-preset", qualityPreset, "-c:a aac",
   "-movflags", "+faststart", "-avoid_negative_ts", "make_zero"]

/-- Outcome of a whole run of the standard chunking path. -/
inductive RunStatus where
  | success : RunStatus
  | validationExit : ℕ → RunStatus
  | transcodeError : ℕ → RunStatus
  deriving DecidableEq

/-- A run's outcome together with the chunk files successfully written. -/
structure RunResult where
  status : RunStatus
  filesWritten : List String
  deriving DecidableEq

/-- The sequential `await` loop of `processChunks` (src/chunker.js:311-357),
with the engine's per-chunk outcome given by an oracle: each job runs only
after the previous one succeeded; the first failure rejects, aborting the
rest. -/
def runChunkJobs (outcome : ℕ → Bool) : List ChunkJob → RunResult
  | [] => { status := .success, filesWritten := [] }
  | j :: rest =>
    if outcome j.index then
      let r := runChunkJobs outcome rest
      { status := r.status, filesWritten := j.outputFilename :: r.filesWritten }
    else
      { status := .transcodeError j.index, filesWritten := [] }

/-- The standard-mode pipeline of `run` (src/chunker.js:761-825):
validate, then plan and process the chunks sequentially. On a validation
failure the process exits before any job is planned or started. -/
def runStandard (inputFileGiven fileExists : Bool) (chunkLength : JSNum)
    (qualityPreset : String) (duration : ℚ) (pfx ext : String)
    (outcome : ℕ → Bool) : RunResult :=
  match validateInput inputFileGiven fileExists chunkLength qualityPreset with
  | .exit c => { status := .validationExit c, filesWritten := [] }
  | .proceed _ => runChunkJobs outcome (planChunks duration chunkLength pfx ext)

/-- One event of the standard chunking loop: an invocation is started for a
0-based chunk index, or it signals completion with success or failure. -/
inductive ChunkEvent where
  | start : ℕ → ChunkEvent
  | complete : ℕ → Bool → ChunkEvent
  deriving DecidableEq

/-- The event trace of the `await` loop of `processChunks`
(src/chunker.js:311-357), started at index `i` with `n` jobs remaining:
each iteration starts one invocation and awaits its completion; on success
the loop advances, on failure the rejection aborts every remaining job. -/
def runJobsFrom (outcome : ℕ → Bool) : ℕ → ℕ → List ChunkEvent
  | _, 0 => []
  | i, n + 1 =>
    .start i :: .complete i (outcome i) ::
      (if outcome i then runJobsFrom outcome (i + 1) n else [])

/-- The full trace of the standard chunking loop over `numChunks` jobs. -/
def chunkRunTrace (outcome : ℕ → Bool) (numChunks : ℕ) : List ChunkEvent :=
  runJobsFrom outcome 0 numChunks

/-- The chunk indices whose invocations were started, in trace order. -/
def startEvents (tr : List ChunkEvent) : List ℕ :=
  tr.filterMap fun e => match e with | .start i => some i | _ => none

/-- The chunk indices whose invocations signaled completion, in trace order. -/
def completeEvents (tr : List ChunkEvent) : List ℕ :=
  tr.filterMap fun e => match e with | .complete i _ => some i | _ => none

/-- Number of jobs the loop starts: all of them, or up to and including the
first failure. -/
def numStartedFrom (outcome : ℕ → Bool) : ℕ → ℕ → ℕ
  | _, 0 => 0
  | i, n + 1 => 1 + (if outcome i then numStartedFrom outcome (i + 1) n else 0)

/-- The primary HLS invocation's output options (src/chunker.js:403-422):
the fixed codec/preset/audio parameters, the segment length and filename
pattern, and — when `playlistType` is truthy and not "none" — the playlist
type tag. -/
def primaryHLSOptions (segmentLength : ℕ) (segmentPattern playlistType : String) :
    List String :=
  ["-c:v", "libx264", "-preset", "ultrafast", "-tune", "fastdecode",
   "-c:a", "aac", "-b:a", "96k", "-ac", "2", "-ar", "44100",
   "-hls_time", Nat.repr segmentLength, "-hls_segment_filename", segmentPattern,
   "-threads", "auto", "-f", "hls"]
  ++ (if playlistType ≠ "" ∧ playlistType ≠ "none"
      then ["-hls_playlist_type", playlistType] else [])

/-- The last-resort fallback invocation's output options
(src/chunker.js:478-485): fixed ultrafast preset, libx264 and aac codecs,
fixed 4-second segment length, and no playlist-type tag. -/
def lastResortHLSOptions (segmentPattern : String) : List String :=
  ["-c:v", "libx264", "-preset", "ultrafast", "-c:a", "aac",
   "-hls_time", "4", "-hls_segment_filename", segmentPattern, "-f", "hls"]

/-- One observable event of the HLS path: an external invocation with its
output options, the writing of an artifact, or the promise settling. -/
inductive HLSEvent where
  | invoke : List String → HLSEvent
  | writeMasterPlaylist : HLSEvent
  | writePlayer : HLSEvent
  | resolved : HLSEvent
  | rejected : HLSEvent
  deriving DecidableEq

/-- The event trace of `processHLSStream` (src/chunker.js:374-466) with the
two invocation outcomes given by oracles: run the primary invocation; on
its success write the master playlist and player page and resolve; on its
failure run exactly one fallback (`tryLastResortHLSConversion`,
src/chunker.js:471-502), which on success writes the same artifacts and
resolves, and on failure rejects, surfacing the HLS error. -/
def hlsTrace (primaryOk fallbackOk : Bool) (segmentLength : ℕ)
    (segmentPattern playlistType : String) : List HLSEvent :=
  .invoke (primaryHLSOptions segmentLength segmentPattern playlistType) ::
    (if primaryOk then [.writeMasterPlaylist, .writePlayer, .resolved]
     else .invoke (lastResortHLSOptions segmentPattern) ::
       (if fallbackOk then [.writeMasterPlaylist, .writePlayer, .resolved]
        else [.rejected]))

/-- The option lists of the invocation attempts of a trace, in order. -/
def invocations (tr : List HLSEvent) : List (List String) :=
  tr.filterMap fun e => match e with | .invoke opts => some opts | _ => none

/-- JavaScript `v || d` on an optional string: the default on a missing or
empty (falsy) value. -/
def jsOrString (v : Option String) (d : String) : String :=
  match v with
  | none => d
  | some s => if s = "" then d else s

/-- The master playlist text written by `createMasterPlaylist`
(src/chunker.js:507-518), with the literal pieces of the template string
verbatim and `metadata.resolution || '1280x720'` substituted. -/
def masterPlaylistContent (pfx : String) (resolution : Option String) : String :=
  "#EXTM3U\n#EXT-X-VERSION:3\n#EXT-X-STREAM-INF:BANDWIDTH=2800000,RESOLUTION=" ++
    jsOrString resolution "1280x720" ++ "\nhls/" ++ pfx ++ ".m3u8\n"

/-- Modelled from the spec: the section-6 master-playlist template — the
four lines with only the resolution and prefix fields substituted and the
bandwidth a hardcoded constant. -/
def specMasterPlaylistTemplate (pfx resolution : String) : String :=
  "#EXTM3U\n#EXT-X-VERSION:3\n#EXT-X-STREAM-INF:BANDWIDTH=2800000,RESOLUTION=" ++
    resolution ++ "\nhls/" ++ pfx ++ ".m3u8\n"

/-! ### Supporting lemmas -/

theorem jsDiv_num_of_ne (a b : ℚ) (hb : b ≠ 0) :
    jsDiv (.num a) (.num b) = .num (a / b) := by
  simp [jsDiv, hb]

theorem loopCount_numChunks (d c : ℚ) (hc : c ≠ 0) :
    loopCount (numChunksJS (.num d) (.num c)) = (⌈d / c⌉ : ℤ).toNat := by
  simp [numChunksJS, jsDiv, hc, jsCeil, loopCount, Int.ceil_intCast]

theorem planChunks_length_toNat (d c : ℚ) (pfx ext : String) (hc : c ≠ 0) :
    (planChunks d (.num c) pfx ext).length = (⌈d / c⌉ : ℤ).toNat := by
  simp [planChunks, loopCount_numChunks d c hc]

theorem ceil_125_60 : (⌈(125 : ℚ) / 60⌉ : ℤ) = 3 := by
  rw [Int.ceil_eq_iff] ; norm_num

theorem ceil_60_60 : (⌈(60 : ℚ) / 60⌉ : ℤ) = 1 := by
  rw [Int.ceil_eq_iff] ; norm_num

/-- The loop condition `i < numChunks` agrees with the modelled iteration
count: the JS `for` loop admits exactly the indices below `loopCount`. -/
theorem jsLtNat_iff_lt_loopCount (i : ℕ) (n : JSNum) :
    jsLtNat i n = decide (i < loopCount n) := by
  cases n with
  | nan => simp [jsLtNat, loopCount]
  | num q =>
    simp only [jsLtNat, loopCount]
    by_cases h : (i : ℚ) < q
    · have h1 : (i : ℤ) < ⌈q⌉ := Int.lt_ceil.mpr h
      have h2 : i < (⌈q⌉ : ℤ).toNat := Int.lt_toNat.mpr h1
      simp [h, h2]
    · have h1 : ¬ (i : ℤ) < ⌈q⌉ := fun hlt => h (Int.lt_ceil.mp hlt)
      have h2 : ¬ i < (⌈q⌉ : ℤ).toNat := fun hlt => h1 (Int.lt_toNat.mp hlt)
      simp [h, h2]

theorem planPairs_125_60 :
    ((planChunks 125 (.num 60) "p" "mp4").map fun j =>
      (j.startOffset, effectiveDuration 125 60 j.startOffset)) =
    [(0, 60), (60, 60), (120, 5)] := by
  rw [planChunks, loopCount_numChunks 125 60 (by norm_num), ceil_125_60,
    show List.range (Int.toNat 3) = [0, 1, 2] from rfl]
  norm_num [effectiveDuration, ratOf, min_def]

theorem planPairs_60_60 :
    ((planChunks 60 (.num 60) "p" "mp4").map fun j =>
      (j.startOffset, effectiveDuration 60 60 j.startOffset)) =
    [(0, 60)] := by
  rw [planChunks, loopCount_numChunks 60 60 (by norm_num), ceil_60_60,
    show List.range (Int.toNat 1) = [0] from rfl]
  norm_num [effectiveDuration, ratOf, min_def]

/-! ### Claim theorems -/

/-- C1: for every duration > 0 and chunkLength > 0 the standard chunking
plan has exactly ceil(duration/chunkLength) jobs, job i starts at
i * chunkLength, the start offsets strictly increase, and the two concrete
scenarios (125s at 60s and 60s at 60s, with the engine's end-of-stream
clipping giving the last chunk's effective duration) come out as stated. -/
theorem plan_count_offsets_scenarios (d c : ℚ) (pfx ext : String)
    (_hd : 0 < d) (hc : 0 < c) :
    (planChunks d (.num c) pfx ext).length = (⌈d / c⌉ : ℤ).toNat
    ∧ (∀ j ∈ planChunks d (.num c) pfx ext, j.startOffset = (j.index : ℚ) * c)
    ∧ (planChunks d (.num c) pfx ext).Pairwise
        (fun a b => a.startOffset < b.startOffset)
    ∧ ((planChunks 125 (.num 60) "p" "mp4").map fun j =>
        (j.startOffset, effectiveDuration 125 60 j.startOffset)) =
      [(0, 60), (60, 60), (120, 5)]
    ∧ ((planChunks 60 (.num 60) "p" "mp4").map fun j =>
        (j.startOffset, effectiveDuration 60 60 j.startOffset)) =
      [(0, 60)] := by
  refine ⟨planChunks_length_toNat d c pfx ext hc.ne', ?_, ?_,
    planPairs_125_60, planPairs_60_60⟩
  · intro j hj
    rw [planChunks] at hj
    obtain ⟨i, _, rfl⟩ := List.mem_map.mp hj
    simp [ratOf]
  · rw [planChunks]
    rw [List.pairwise_map]
    refine (List.pairwise_lt_range _).imp ?_
    intro a b hab
    simp only [ratOf]
    exact mul_lt_mul_of_pos_right (by exact_mod_cast hab) hc

/-- C1 witness: the scenario duration 125, chunk length 60 satisfies the
hypotheses and the stated plan properties. -/
theorem plan_count_offsets_scenarios_witness :
    (0 : ℚ) < 125 ∧ (0 : ℚ) < 60 ∧
    ((planChunks 125 (.num 60) "p" "mp4").length = (⌈(125 : ℚ) / 60⌉ : ℤ).toNat
    ∧ (∀ j ∈ planChunks 125 (.num 60) "p" "mp4",
        j.startOffset = (j.index : ℚ) * 60)
    ∧ (planChunks 125 (.num 60) "p" "mp4").Pairwise
        (fun a b => a.startOffset < b.startOffset)
    ∧ ((planChunks 125 (.num 60) "p" "mp4").map fun j =>
        (j.startOffset, effectiveDuration 125 60 j.startOffset)) =
      [(0, 60), (60, 60), (120, 5)]
    ∧ ((planChunks 60 (.num 60) "p" "mp4").map fun j =>
        (j.startOffset, effectiveDuration 60 60 j.startOffset)) =
      [(0, 60)]) :=
  ⟨by norm_num, by norm_num,
    plan_count_offsets_scenarios 125 60 "p" "mp4" (by norm_num) (by norm_num)⟩

/-- C6: for every duration > 0 and chunkLength > 0, the last planned
chunk's effective extracted duration — its planned start offset
(count - 1) * chunkLength together with the engine's end-of-stream
clipping of the requested chunkLength — equals
duration - (count - 1) * chunkLength, which is ≤ chunkLength and > 0. -/
theorem last_chunk_effective (d c : ℚ) (pfx ext : String) (n : ℕ)
    (hd : 0 < d) (hc : 0 < c)
    (hn : n = (planChunks d (.num c) pfx ext).length) :
    effectiveDuration d c (((n : ℚ) - 1) * c) = d - ((n : ℚ) - 1) * c
    ∧ d - ((n : ℚ) - 1) * c ≤ c
    ∧ 0 < d - ((n : ℚ) - 1) * c := by
  have hcne : c ≠ 0 := hc.ne'
  have hpos : 0 < ⌈d / c⌉ := Int.ceil_pos.mpr (div_pos hd hc)
  have hcast : ((n : ℚ)) = ((⌈d / c⌉ : ℤ) : ℚ) := by
    rw [hn, planChunks_length_toNat d c pfx ext hcne]
    have h : (((⌈d / c⌉ : ℤ).toNat : ℤ) : ℚ) = ((⌈d / c⌉ : ℤ) : ℚ) := by
      rw [Int.toNat_of_nonneg hpos.le]
    exact_mod_cast h
  have hle : d ≤ ((⌈d / c⌉ : ℤ) : ℚ) * c := (div_le_iff₀ hc).mp (Int.le_ceil (d / c))
  have hlt : (((⌈d / c⌉ : ℤ) : ℚ) - 1) * c < d := by
    have h1 : ((⌈d / c⌉ : ℤ) : ℚ) < d / c + 1 := Int.ceil_lt_add_one (d / c)
    have h2 : ((⌈d / c⌉ : ℤ) : ℚ) - 1 < d / c := by linarith
    exact (lt_div_iff₀ hc).mp h2
  have hexp : (((⌈d / c⌉ : ℤ) : ℚ) - 1) * c = ((⌈d / c⌉ : ℤ) : ℚ) * c - c := by ring
  rw [hcast]
  refine ⟨?_, by linarith, by linarith⟩
  rw [effectiveDuration]
  exact min_eq_right (by linarith)

/-- C6 witness: duration 125, chunk length 60 — three chunks, the last
starting at 120 with effective duration 5 = 125 - 2 * 60 ≤ 60. -/
theorem last_chunk_effective_witness :
    (0 : ℚ) < 125 ∧ (0 : ℚ) < 60
    ∧ 3 = (planChunks 125 (.num 60) "p" "mp4").length
    ∧ (effectiveDuration 125 60 ((((3 : ℕ) : ℚ) - 1) * 60)
        = 125 - (((3 : ℕ) : ℚ) - 1) * 60
      ∧ 125 - (((3 : ℕ) : ℚ) - 1) * 60 ≤ 60
      ∧ 0 < 125 - (((3 : ℕ) : ℚ) - 1) * 60) :=
  ⟨by norm_num, by norm_num,
    by simp [planChunks_length_toNat 125 60 "p" "mp4" (by norm_num), ceil_125_60],
    last_chunk_effective 125 60 "p" "mp4" 3 (by norm_num) (by norm_num)
      (by simp [planChunks_length_toNat 125 60 "p" "mp4" (by norm_num), ceil_125_60])⟩

/-- C2: with the invalid preset "turbo" the validation only warns and the
run proceeds, but contrary to the claim (and to the warning's own text
"Using \"fast\" instead") the default preset is NOT substituted: the
re-encode invocation is built with "-preset turbo", not "-preset fast". -/
theorem turbo_preset_warns_but_not_substituted :
    validateInput true true (.num 60) "turbo" = .proceed true
    ∧ encodeOutputOptions "turbo" =
        ["-c:v libx264", "-preset", "turbo", "-c:a aac",
         "-movflags", "+faststart", "-avoid_negative_ts", "make_zero"]
    ∧ "fast" ∉ encodeOutputOptions "turbo" := by
  refine ⟨by decide, rfl, by decide⟩

/-- C5: the master playlist written in HLS mode is byte-for-byte the
section-6 template with only the prefix and resolution substituted, the
resolution defaulting to 1280x720 when missing or empty, and the bandwidth
hardcoded; in particular prefix "lesson" and resolution "1920x1080" give
exactly the template text. -/
theorem master_playlist_matches_template (pfx res : String) :
    masterPlaylistContent pfx (some res)
      = specMasterPlaylistTemplate pfx (if res = "" then "1280x720" else res)
    ∧ masterPlaylistContent pfx none = specMasterPlaylistTemplate pfx "1280x720"
    ∧ masterPlaylistContent "lesson" (some "1920x1080")
      = "#EXTM3U\n#EXT-X-VERSION:3\n#EXT-X-STREAM-INF:BANDWIDTH=2800000,RESOLUTION=1920x1080\nhls/lesson.m3u8\n" :=
  ⟨rfl, rfl, by decide⟩

/-- C8: whenever the parsed chunk length is a number ≤ 0, validation
exits the process with code 1 — whatever the other inputs — and the
standard-mode run plans and starts no chunk job and writes no file. -/
theorem nonpositive_chunk_length_rejected (g e : Bool) (q : ℚ) (preset : String)
    (d : ℚ) (pfx ext : String) (outcome : ℕ → Bool) (h : q ≤ 0) :
    validateInput g e (.num q) preset = .exit 1
    ∧ runStandard g e (.num q) preset d pfx ext outcome
        = { status := .validationExit 1, filesWritten := [] } := by
  have hle : jsLeZero (.num q) = true := by simp [jsLeZero, h]
  constructor
  · cases g <;> cases e <;> simp [validateInput, hle]
  · cases g <;> cases e <;> simp [runStandard, validateInput, hle]

/-- C8 witness: chunk length 0 (`--length 0`) is rejected with exit code 1
and no job is planned. -/
theorem nonpositive_chunk_length_rejected_witness :
    (0 : ℚ) ≤ 0
    ∧ (validateInput true true (.num 0) "fast" = .exit 1
       ∧ runStandard true true (.num 0) "fast" 125 "p" "mp4" (fun _ => true)
           = { status := .validationExit 1, filesWritten := [] }) :=
  ⟨le_refl 0,
    nonpositive_chunk_length_rejected true true 0 "fast" 125 "p" "mp4"
      (fun _ => true) (le_refl 0)⟩

/-- C10: `--length abc` parses to NaN; validation does not reject it since
NaN ≤ 0 is false, the chunk count ceil(duration/NaN) is NaN, the chunk
loop runs zero iterations, and the run reports success having written no
chunk file at all. -/
theorem nan_chunk_length_silent_success (d : ℚ) (pfx ext : String)
    (outcome : ℕ → Bool) :
    parseIntJS "abc" = JSNum.nan
    ∧ validateInput true true (parseIntJS "abc") "fast" = .proceed false
    ∧ numChunksJS (.num d) JSNum.nan = JSNum.nan
    ∧ loopCount JSNum.nan = 0
    ∧ planChunks d (parseIntJS "abc") pfx ext = []
    ∧ runStandard true true (parseIntJS "abc") "fast" d pfx ext outcome
        = { status := .success, filesWritten := [] } :=
  ⟨by decide, by decide, rfl, rfl, rfl, rfl⟩

/-- C3: on primary HLS failure exactly one fallback invocation runs, with
the fixed reduced parameter set — ultrafast preset, libx264 video, aac
audio, 4-second segments, no playlist-type tag — and if the fallback also
fails the trace ends rejected (surfacing the HLS error) after exactly
those two invocation attempts. -/
theorem hls_single_fallback_fixed_params (segLen : ℕ) (pat ptype : String) :
    invocations (hlsTrace false false segLen pat ptype)
      = [primaryHLSOptions segLen pat ptype, lastResortHLSOptions pat]
    ∧ invocations (hlsTrace false true segLen pat ptype)
      = [primaryHLSOptions segLen pat ptype, lastResortHLSOptions pat]
    ∧ lastResortHLSOptions pat
      = ["-c:v", "libx264", "-preset", "ultrafast", "-c:a", "aac",
         "-hls_time", "4", "-hls_segment_filename", pat, "-f", "hls"]
    ∧ "-hls_playlist_type" ∉ lastResortHLSOptions "hls/chunk_%03d.ts"
    ∧ (hlsTrace false false segLen pat ptype).getLast? = some HLSEvent.rejected := by
  refine ⟨?_, ?_, rfl, by decide, ?_⟩ <;> simp [hlsTrace, invocations]

/-- C4: in HLS mode the master playlist and player page are written iff
some invocation attempt succeeds; primary failure plus fallback success
ends resolved (overall success) after exactly two invocation attempts with
the artifacts written, while two failures end rejected (the HLS error)
with neither artifact written. -/
theorem hls_artifacts_iff_attempt_success (segLen : ℕ) (pat ptype : String)
    (p f : Bool) :
    (HLSEvent.writeMasterPlaylist ∈ hlsTrace p f segLen pat ptype
      ↔ (p = true ∨ f = true))
    ∧ (HLSEvent.writePlayer ∈ hlsTrace p f segLen pat ptype
      ↔ (p = true ∨ f = true))
    ∧ ((hlsTrace p f segLen pat ptype).getLast? = some HLSEvent.resolved
      ↔ (p = true ∨ f = true))
    ∧ (invocations (hlsTrace false true segLen pat ptype)).length = 2
    ∧ (hlsTrace false true segLen pat ptype).getLast? = some HLSEvent.resolved
    ∧ HLSEvent.writeMasterPlaylist ∈ hlsTrace false true segLen pat ptype
    ∧ HLSEvent.writePlayer ∈ hlsTrace false true segLen pat ptype
    ∧ (hlsTrace false false segLen pat ptype).getLast? = some HLSEvent.rejected
    ∧ HLSEvent.writeMasterPlaylist ∉ hlsTrace false false segLen pat ptype
    ∧ HLSEvent.writePlayer ∉ hlsTrace false false segLen pat ptype := by
  cases p <;> cases f <;> simp [hlsTrace, invocations]

theorem startEvents_nil : startEvents [] = [] := rfl

theorem startEvents_cons_start (i : ℕ) (tr : List ChunkEvent) :
    startEvents (.start i :: tr) = i :: startEvents tr := rfl

theorem startEvents_cons_complete (i : ℕ) (b : Bool) (tr : List ChunkEvent) :
    startEvents (.complete i b :: tr) = startEvents tr := rfl

theorem completeEvents_nil : completeEvents [] = [] := rfl

theorem completeEvents_cons_start (i : ℕ) (tr : List ChunkEvent) :
    completeEvents (.start i :: tr) = completeEvents tr := rfl

theorem completeEvents_cons_complete (i : ℕ) (b : Bool) (tr : List ChunkEvent) :
    completeEvents (.complete i b :: tr) = i :: completeEvents tr := rfl

/-- Along every prefix of the loop's trace, at most one invocation is in
flight: the starts never outnumber the completions by more than one. -/
theorem runJobsFrom_prefix_inflight (o : ℕ → Bool) :
    ∀ (n i : ℕ) (p : List ChunkEvent), p <+: runJobsFrom o i n →
      (startEvents p).length ≤ (completeEvents p).length + 1 := by
  intro n
  induction n with
  | zero =>
    intro i p hp
    rw [runJobsFrom] at hp
    rw [List.prefix_nil.mp hp]
    simp [startEvents, completeEvents]
  | succ k ih =>
    intro i p hp
    rw [runJobsFrom] at hp
    rcases p with _ | ⟨e, p1⟩
    · simp [startEvents, completeEvents]
    · obtain ⟨he, hp1⟩ := List.cons_prefix_cons.mp hp
      subst he
      rcases p1 with _ | ⟨e2, p2⟩
      · simp [startEvents, completeEvents]
      · obtain ⟨he2, hp2⟩ := List.cons_prefix_cons.mp hp1
        subst he2
        have htail : (startEvents p2).length ≤ (completeEvents p2).length + 1 := by
          by_cases ho : o i = true
          · rw [ho] at hp2
            simp only [if_true] at hp2
            exact ih (i + 1) p2 hp2
          · rw [Bool.not_eq_true] at ho
            rw [ho] at hp2
            simp only [Bool.false_eq_true, if_false] at hp2
            rw [List.prefix_nil.mp hp2]
            simp [startEvents, completeEvents]
        simp only [startEvents_cons_start, startEvents_cons_complete,
          completeEvents_cons_start, completeEvents_cons_complete, List.length_cons]
        omega

/-- An invocation for chunk `j` is started iff `j` is in range of the jobs
handed to the loop and every earlier chunk's invocation succeeded. -/
theorem start_mem_runJobsFrom (o : ℕ → Bool) :
    ∀ (n i j : ℕ), ChunkEvent.start j ∈ runJobsFrom o i n ↔
      (i ≤ j ∧ j < i + n ∧ ∀ k, i ≤ k → k < j → o k = true) := by
  intro n
  induction n with
  | zero =>
    intro i j
    rw [runJobsFrom]
    simp only [List.not_mem_nil, false_iff]
    intro h
    omega
  | succ m ih =>
    intro i j
    rw [runJobsFrom]
    by_cases ho : o i = true
    · rw [ho]
      simp only [if_true, List.mem_cons]
      constructor
      · rintro (hj | hj | hj)
        · obtain rfl : j = i := ChunkEvent.start.inj hj
          exact ⟨le_refl _, by omega,
            fun k hk1 hk2 => absurd (lt_of_le_of_lt hk1 hk2) (lt_irrefl _)⟩
        · exact absurd hj (by simp)
        · obtain ⟨h1, h2, h3⟩ := (ih (i + 1) j).mp hj
          exact ⟨by omega, by omega, fun k hk1 hk2 => by
            rcases Nat.eq_or_lt_of_le hk1 with rfl | hk
            · exact ho
            · exact h3 k (by omega) hk2⟩
      · rintro ⟨h1, h2, h3⟩
        rcases Nat.eq_or_lt_of_le h1 with rfl | hij
        · exact Or.inl rfl
        · refine Or.inr (Or.inr ((ih (i + 1) j).mpr ⟨by omega, by omega, ?_⟩))
          intro k hk1 hk2
          exact h3 k (by omega) hk2
    · rw [Bool.not_eq_true] at ho
      rw [ho]
      simp only [Bool.false_eq_true, if_false, List.mem_cons, List.not_mem_nil, or_false]
      constructor
      · rintro (hj | hj)
        · obtain rfl : j = i := ChunkEvent.start.inj hj
          exact ⟨le_refl _, by omega,
            fun k hk1 hk2 => absurd (lt_of_le_of_lt hk1 hk2) (lt_irrefl _)⟩
        · exact absurd hj (by simp)
      · rintro ⟨h1, h2, h3⟩
        rcases Nat.eq_or_lt_of_le h1 with rfl | hij
        · exact Or.inl rfl
        · have := h3 i (le_refl i) hij
          rw [ho] at this
          exact absurd this (by simp)

/-- The started chunk indices form the contiguous ascending block
`i, i+1, ...` of length `numStartedFrom`. -/
theorem startEvents_runJobsFrom (o : ℕ → Bool) :
    ∀ (n i : ℕ), startEvents (runJobsFrom o i n)
      = List.range' i (numStartedFrom o i n) := by
  intro n
  induction n with
  | zero =>
    intro i
    rw [runJobsFrom, numStartedFrom]
    rfl
  | succ m ih =>
    intro i
    rw [runJobsFrom, numStartedFrom]
    by_cases ho : o i = true
    · rw [ho]
      simp only [if_true, startEvents_cons_start, startEvents_cons_complete]
      rw [ih (i + 1), Nat.add_comm 1 (numStartedFrom o (i + 1) m), List.range'_succ]
    · rw [Bool.not_eq_true] at ho
      rw [ho]
      simp only [Bool.false_eq_true, if_false, startEvents_cons_start,
        startEvents_cons_complete]
      rfl

/-- When the invocation for chunk `j + 1` is started, the trace contains
chunk `j`'s successful completion strictly before it. -/
theorem complete_before_next_start (o : ℕ → Bool) :
    ∀ (n i j : ℕ), i ≤ j → ChunkEvent.start (j + 1) ∈ runJobsFrom o i n →
      List.Sublist [ChunkEvent.complete j true, ChunkEvent.start (j + 1)]
        (runJobsFrom o i n) := by
  intro n
  induction n with
  | zero =>
    intro i j _ hmem
    rw [runJobsFrom] at hmem
    exact absurd hmem (List.not_mem_nil _)
  | succ m ih =>
    intro i j hij hmem
    rw [runJobsFrom] at hmem ⊢
    have hne : ChunkEvent.start (j + 1) ≠ ChunkEvent.start i := by
      intro h
      have := ChunkEvent.start.inj h
      omega
    have hne2 : ChunkEvent.start (j + 1) ≠ ChunkEvent.complete i (o i) := by simp
    have hrest : ChunkEvent.start (j + 1) ∈
        (if o i = true then runJobsFrom o (i + 1) m else []) := by
      rcases List.mem_cons.mp hmem with h | h
      · exact absurd h hne
      · rcases List.mem_cons.mp h with h2 | h2
        · exact absurd h2 hne2
        · exact h2
    by_cases ho : o i = true
    · rw [ho] at hrest ⊢
      simp only [if_true] at hrest ⊢
      rcases Nat.eq_or_lt_of_le hij with rfl | hlt
      · refine List.Sublist.cons _ (List.Sublist.cons₂ _ ?_)
        exact List.singleton_sublist.mpr hrest
      · refine List.Sublist.cons _ (List.Sublist.cons _ ?_)
        exact ih (i + 1) j hlt hrest
    · rw [Bool.not_eq_true] at ho
      rw [ho] at hrest
      simp only [Bool.false_eq_true, if_false] at hrest
      exact absurd hrest (List.not_mem_nil _)

/-- C7: the standard chunking loop is strictly sequential — along every
prefix of its event trace at most one invocation is in flight, the started
indices are exactly 0, 1, 2, ... in order with no index started twice (no
retry), chunk j+1 is started only after chunk j's invocation completed
successfully, and a failure at chunk j aborts every remaining job: an
invocation is started iff its index is in range and all earlier
invocations succeeded. -/
theorem chunks_sequential_abort_on_failure (o : ℕ → Bool) (n : ℕ) :
    (∀ p, p <+: chunkRunTrace o n →
      (startEvents p).length ≤ (completeEvents p).length + 1)
    ∧ (∀ j, ChunkEvent.start j ∈ chunkRunTrace o n ↔
      (j < n ∧ ∀ k, k < j → o k = true))
    ∧ startEvents (chunkRunTrace o n)
      = List.range (startEvents (chunkRunTrace o n)).length
    ∧ (∀ j, ChunkEvent.start (j + 1) ∈ chunkRunTrace o n →
      List.Sublist [ChunkEvent.complete j true, ChunkEvent.start (j + 1)]
        (chunkRunTrace o n)) := by
  refine ⟨fun p hp => runJobsFrom_prefix_inflight o n 0 p hp, ?_, ?_, ?_⟩
  · intro j
    rw [chunkRunTrace, start_mem_runJobsFrom o n 0 j]
    constructor
    · rintro ⟨_, h2, h3⟩
      exact ⟨by omega, fun k hk => h3 k (Nat.zero_le k) hk⟩
    · rintro ⟨h1, h2⟩
      exact ⟨Nat.zero_le j, by omega, fun k _ hk => h2 k hk⟩
  · rw [chunkRunTrace, startEvents_runJobsFrom o n 0, List.length_range',
      List.range_eq_range']
  · intro j hmem
    exact complete_before_next_start o n 0 j (Nat.zero_le j) hmem

/-- C9 counterexample: at 0-based chunk index 999 the filename's numeric
field is "1000" — four digits, not exactly three — because
`String(i + 1).padStart(3, '0')` pads to a minimum width and never
truncates. -/
theorem chunk_filename_not_exactly_three_digits :
    chunkFilename "ielts2go_chunk" "mp4" 999 = "ielts2go_chunk_1000.mp4"
    ∧ (padStart (Nat.repr (999 + 1)) 3 '0').length = 4 :=
  ⟨by decide, by decide⟩

set_option maxRecDepth 100000 in
/-- C9 amended: the chunk with 0-based index i is named pfx_NNN.ext where
NNN is the decimal representation of i + 1 left-padded with zeros to a
minimum width of three — exactly three digits whenever i + 1 ≤ 999 — so
the sequence starts at pfx_001.ext and the number increases by one per
chunk. -/
theorem chunk_filename_padded_min_three (pfx ext : String) (i : ℕ) :
    chunkFilename pfx ext i
      = pfx ++ "_" ++ padStart (Nat.repr (i + 1)) 3 '0' ++ "." ++ ext
    ∧ (padStart (Nat.repr (i + 1)) 3 '0').length
      = max 3 (Nat.repr (i + 1)).length
    ∧ (i + 1 ≤ 999 → (padStart (Nat.repr (i + 1)) 3 '0').length = 3)
    ∧ padStart (Nat.repr (0 + 1)) 3 '0' = "001" := by
  have hlen : ∀ s : String, (padStart s 3 '0').length = max 3 s.length := by
    intro s
    rw [padStart, String.length_append]
    have h1 : (String.mk (List.replicate (3 - s.length) '0')).length
        = 3 - s.length := by
      show (List.replicate (3 - s.length) '0').length = 3 - s.length
      exact List.length_replicate _ _
    rw [h1, Nat.sub_add_eq_max]
  refine ⟨rfl, hlen _, ?_, by decide⟩
  intro hle
  rw [hlen]
  have h999 : ∀ n < 1000, (Nat.repr n).length ≤ 3 := by decide
  have h3 := h999 (i + 1) (by omega)
  omega

end Chunkify
